import Mathlib

/-!
# Verification of the interval-merging core of a myquery archiver client

This file gives a shallow embedding of the series-merging algorithm
(`Interval._combine_series` in `pymyquery/interval.py`), of the post-barrier
logic of `Interval.run_parallel`, and of `IntervalQuery.to_web_params`
(`pymyquery/query.py`), and proves the stated properties about them.

Modelling conventions:
* Timestamps are `Nat`; a pandas `DatetimeIndex` entry becomes a natural number.
* A stored value is `Option Int`: `some v` models a recorded float value and
  `none` models pandas `NaN` (the representation of a non-update / disconnect
  event inside a float series).
* A pandas `Series` becomes `MSeries`: a channel name and a list of
  (timestamp, value) points in index order.
* A pandas `DataFrame` becomes `MFrame`: a row index plus one named column
  (aligned with the index) per input series, in input order.
-/

namespace JlabArchiver

/-- One pandas Series of PV history as produced by `Interval.run`:
the channel name (the Series `name`) and the indexed data points.
A point `(t, none)` is a non-update/disconnect event stored as NaN;
`(t, some v)` is an ordinary value update. -/
structure MSeries where
  name : String
  points : List (Nat × Option Int)
deriving Repr, DecidableEq

/-- Are consecutive entries strictly increasing? -/
def sortedTs : List Nat → Bool
  | [] => true
  | [_] => true
  | a :: b :: r => decide (a < b) && sortedTs (b :: r)

/-- Well-formed channel sequence: the index timestamps strictly increase
(the archiver returns events in chronological order; the merge keys cells
by timestamp, so duplicate index labels are outside the supported domain —
`pandas.concat` refuses them). -/
def WfSeries (s : MSeries) : Prop :=
  sortedTs (s.points.map Prod.fst) = true

instance (s : MSeries) : Decidable (WfSeries s) :=
  inferInstanceAs (Decidable (_ = true))

/-- All timestamps occurring in any of the input series, in input order:
the labels that `pd.concat(series, axis=1)` joins over. -/
def allTs (ss : List MSeries) : List Nat :=
  ss.flatMap (fun s => s.points.map Prod.fst)

/-- The row index of `pd.concat(series, axis=1).sort_index()`: the union of
the input indexes (deduplicated by the outer join) sorted ascending. -/
def unionIndex (ss : List MSeries) : List Nat :=
  (allTs ss).dedup.insertionSort (· ≤ ·)

/-- The cell that the concat step places at row `t` for a series with points
`pts`: the value of the series' point at `t` if there is one (which is NaN =
`none` for a non-update event), and NaN = `none` when `t` comes from another
series' index. -/
def cellAt (pts : List (Nat × Option Int)) (t : Nat) : Option Int :=
  match pts.find? (fun p => decide (p.1 = t)) with
  | some p => p.2
  | none => none

/-- One step of pandas forward fill: a non-NaN cell replaces the carried
value, a NaN cell is filled with it. -/
def stepFF (acc v : Option Int) : Option Int :=
  match v with
  | some x => some x
  | none => acc

/-- Forward fill of a column, carrying the most recent non-NaN value `a`. -/
def ffillGo (a : Option Int) : List (Option Int) → List (Option Int)
  | [] => []
  | v :: rest =>
    match v with
    | some x => some x :: ffillGo (some x) rest
    | none => a :: ffillGo a rest

/-- `DataFrame.ffill()` on one column: cells before the first non-NaN cell
stay NaN. -/
def ffillCol (l : List (Option Int)) : List (Option Int) :=
  ffillGo none l

/-- The last non-NaN entry of a column prefix (the value forward fill
propagates to the end of that prefix). -/
def lastSome (l : List (Option Int)) : Option Int :=
  l.foldl stepFF none

/-- For every NaN point of the series, the pair of its timestamp `t0` and the
timestamp of the next point of the series, if any
(`s.index.to_series().shift(-1)`; `none` models the trailing `pd.NaT`). -/
def gapPairs : List (Nat × Option Int) → List (Nat × Option Nat)
  | [] => []
  | (t, none) :: rest => (t, rest.head?.map Prod.fst) :: gapPairs rest
  | (_, some _) :: rest => gapPairs rest

/-- Does row timestamp `t` fall in the gap started at `t0` and bounded by
`nxt`?  This is the row mask `(df.index >= idx) & (df.index < next_ts[idx])`,
resp. `df.index >= idx` when there is no next point. -/
def inGapOf (t0 : Nat) (nxt : Option Nat) (t : Nat) : Bool :=
  decide (t0 ≤ t) && (match nxt with
                      | none => true
                      | some t1 => decide (t < t1))

/-- One `df.loc[mask, name] = np.nan` assignment restricted to a single
column: rows of the union index falling in the gap become NaN. -/
def maskOnce (t0 : Nat) (nxt : Option Nat) (xs : List Nat) (col : List (Option Int)) :
    List (Option Int) :=
  (xs.zip col).map (fun tc => if inGapOf t0 nxt tc.1 then none else tc.2)

/-- The whole `for idx, is_true in nan_mask.items()` loop for one series,
acting on one column: each NaN point re-blanks its gap rows in turn. -/
def applyGaps (pts : List (Nat × Option Int)) (xs : List Nat) (col : List (Option Int)) :
    List (Option Int) :=
  (gapPairs pts).foldl (fun c p => maskOnce p.1 p.2 xs c) col

/-- `sum(nan_mask)`: how many NaN (non-update) points the series has. -/
def countNulls (pts : List (Nat × Option Int)) : Nat :=
  (pts.filter (fun p => p.2.isNone)).length

/-- Is `t` in one of the gap regions the loop derives from `pts`? -/
def inGap (pts : List (Nat × Option Int)) (t : Nat) : Bool :=
  (gapPairs pts).any (fun p => inGapOf p.1 p.2 t)

/-- The merged table: the shared row index and one `(name, column)` per input
series, columns aligned with the index. -/
structure MFrame where
  idx : List Nat
  cols : List (String × List (Option Int))
deriving Repr, DecidableEq

/-- The columns of `pd.concat(series, axis=1).sort_index().ffill()`. -/
def filledCols (ss : List MSeries) (xs : List Nat) : List (String × List (Option Int)) :=
  ss.map (fun s => (s.name, ffillCol (xs.map (cellAt s.points))))

/-- Effect of one series' gap re-application on one column of the frame: the
assignment targets the column labelled `s.name` (`df.loc[..., s.name]`),
other columns are untouched. -/
def perColStep (xs : List Nat) (s : MSeries) (c : String × List (Option Int)) :
    String × List (Option Int) :=
  if c.1 = s.name then (c.1, applyGaps s.points xs c.2) else c

/-- One iteration of the outer `for s in series` loop: when the series has
NaN points (`if sum(nan_mask) > 0`), its gaps are re-applied to the
column(s) carrying its name. -/
def gapStep (xs : List Nat) (cols : List (String × List (Option Int))) (s : MSeries) :
    List (String × List (Option Int)) :=
  if 0 < countNulls s.points then cols.map (perColStep xs s) else cols

/-- `Interval._combine_series`: concat on the union index, sort, forward
fill, then re-apply every series' NaN gaps on top of the fill. -/
def combineSeries (ss : List MSeries) : MFrame :=
  { idx := unionIndex ss
    cols := ss.foldl (gapStep (unionIndex ss)) (filledCols ss (unionIndex ss)) }

/-- The spec-side description of a filled cell: the value of the channel's
latest event at or before `t` (`none` when there is no such event or the
latest one is a non-update marker). -/
def latestValue (pts : List (Nat × Option Int)) (t : Nat) : Option Int :=
  match (pts.filter (fun p => decide (p.1 ≤ t))).getLast? with
  | some p => p.2
  | none => none

/-- Does any input series carrying column name `n` put row `t` in a gap?
This is the total effect of the gap re-application loop on a cell of column `n`. -/
def gapAnyL (L : List MSeries) (n : String) (t : Nat) : Bool :=
  L.any (fun u => decide (u.name = n) && inGap u.points t)

/-! ## `Interval.run_parallel`: post-barrier control flow

`run_parallel` submits one `Interval.run` per channel to a thread pool and
then calls `concurrent.futures.wait(futures, return_when=ALL_COMPLETED)`.
Each channel's `run` either succeeds (storing a Series in `self.data`) or
raises (leaving `self.data = None`).  We model the per-channel outcome as
`Option MSeries` and embed the control flow that follows the barrier. -/

/-- A Python exception escaping `run_parallel`. -/
inductive PyError where
  | myquery (msg : String)
  | typeError (msg : String)
deriving Repr, DecidableEq

/-- The `not_done` set returned by
`concurrent.futures.wait(futures, return_when=ALL_COMPLETED)` with no
timeout: the call only returns once every future has finished, and a future
whose callable raised an exception still counts as finished (done), so the
set is always empty — whichever channels failed. -/
def notDoneChannels (_outcomes : List (String × Option MSeries)) : List String :=
  []

/-- `pd.concat` applied to the collected `out[channel].data` values: if any
entry is `None` (a channel whose `run` raised), `concat` raises
`TypeError("cannot concatenate object of type NoneType")`; otherwise the
merge proceeds on the actual Series. -/
def concatOrRaise (l : List (Option MSeries)) : Except PyError MFrame :=
  if l.all Option.isSome then Except.ok (combineSeries (l.filterMap id))
  else Except.error (PyError.typeError "cannot concatenate object of type NoneType")

/-- The tail of `Interval.run_parallel` after the synchronization barrier:
raise `MyqueryException` if some futures did not complete, otherwise merge
the per-channel data.  (`outcomes` lists, per channel in dispatch order, the
data its `run` left behind.) -/
def runParallelMerge (outcomes : List (String × Option MSeries)) :
    Except PyError MFrame :=
  if (notDoneChannels outcomes).length > 0 then
    Except.error (PyError.myquery "Some PV queries did not complete.")
  else concatOrRaise (outcomes.map (fun c => c.2))

/-! ## `Interval.run_parallel`: query construction

`run_parallel` deletes a caller-supplied `channel` keyword argument, forces
`prior_point = True`, and builds one `IntervalQuery(pv, **kwargs)` per pv. -/

/-- A Python keyword-argument value (only the shapes the queries use). -/
inductive KwVal where
  | b (v : Bool)
  | s (v : String)
  | n (v : Nat)
deriving Repr, DecidableEq

/-- `del kwargs[k]`: remove the binding of key `k`. -/
def delKey (d : List (String × KwVal)) (k : String) : List (String × KwVal) :=
  d.filter (fun p => !(decide (p.1 = k)))

/-- `kwargs[k] = v`: replace the value of an existing binding in place,
otherwise append a new binding (Python dict insertion-order semantics). -/
def kwSet (d : List (String × KwVal)) (k : String) (v : KwVal) :
    List (String × KwVal) :=
  if k ∈ d.map Prod.fst then
    d.map (fun p => if p.1 = k then (p.1, v) else p)
  else d ++ [(k, v)]

/-- Value bound to `k`, if any. -/
def kwLookup (d : List (String × KwVal)) (k : String) : Option KwVal :=
  (d.find? (fun p => decide (p.1 = k))).map Prod.snd

/-- Lines 111–113 of `interval.py`: drop any caller-supplied `channel` and
force `prior_point` to `True`. -/
def prepKwargs (kwargs : List (String × KwVal)) : List (String × KwVal) :=
  let k := if "channel" ∈ kwargs.map Prod.fst then delKey kwargs "channel" else kwargs
  kwSet k "prior_point" (KwVal.b true)

/-- Keyword binding of `IntervalQuery(pv, **kwargs)` for the two fields the
claim concerns: `channel` is bound positionally to `pv` (passing `channel`
in `kwargs` as well would raise `TypeError: got multiple values`), and
`prior_point` takes the keyword value when present, else its default
`False`. -/
def mkIntervalQuery (pv : String) (kwargs : List (String × KwVal)) :
    Except String (String × Bool) :=
  if "channel" ∈ kwargs.map Prod.fst then
    Except.error "got multiple values for argument channel"
  else
    Except.ok (pv, match kwLookup kwargs "prior_point" with
                   | some (KwVal.b v) => v
                   | _ => false)

/-- Lines 115–117 of `interval.py`: one query per pv, all sharing the
prepared kwargs. -/
def buildQueries (pvlist : List String) (kwargs : List (String × KwVal)) :
    List (Except String (String × Bool)) :=
  pvlist.map (fun pv => mkIntervalQuery pv (prepKwargs kwargs))

/-! ## `IntervalQuery.to_web_params`

A faithful embedding of `pymyquery/query.py`'s `to_web_params`: the web
parameter dict is built from the enumerated options, then updated in place
with the open-ended `extra_opts` bag (`out.update(self.extra_opts)`).
The function also returns the list of warnings the call emits; the source
contains no warning call, so that list is built as `[]` unconditionally. -/

/-- A web-parameter value: the dict mixes strings and ints. -/
inductive WebVal where
  | str (v : String)
  | nat (v : Nat)
deriving Repr, DecidableEq

/-- `out[k] = v` on the parameter dict. -/
def webSet (d : List (String × WebVal)) (k : String) (v : WebVal) :
    List (String × WebVal) :=
  if k ∈ d.map Prod.fst then
    d.map (fun p => if p.1 = k then (p.1, v) else p)
  else d ++ [(k, v)]

/-- `out.update(extra)`. -/
def webUpdate (d extra : List (String × WebVal)) : List (String × WebVal) :=
  extra.foldl (fun d kv => webSet d kv.1 kv.2) d

/-- Value bound to `k` in the parameter dict, if any. -/
def webLookup (d : List (String × WebVal)) (k : String) : Option WebVal :=
  (d.find? (fun p => decide (p.1 = k))).map Prod.snd

/-- The fields of a `pymyquery.query.IntervalQuery` that `to_web_params`
reads (`begin`/`end` already rendered by `strftime`). -/
structure IntervalQueryW where
  channel : String
  beginStr : String
  endStr : String
  deployment : String
  fracTimeDigits : Nat
  sigFigs : Nat
  binLimit : Option Nat
  sampleType : Option String
  dataUpdatesOnly : Bool
  priorPoint : Bool
  enumsAsStr : Bool
  unixTimestampsMs : Bool
  adjustTimeToServerOffset : Bool
  integrate : Bool
  extraOpts : List (String × WebVal)
deriving Repr, DecidableEq

/-- `IntervalQuery.to_web_params`, returning the parameter dict together
with the warnings emitted during the call (none, in this code). -/
def toWebParams (q : IntervalQueryW) : List (String × WebVal) × List String :=
  let out := [("c", WebVal.str q.channel), ("b", WebVal.str q.beginStr),
              ("e", WebVal.str q.endStr), ("m", WebVal.str q.deployment),
              ("f", WebVal.nat q.fracTimeDigits), ("v", WebVal.nat q.sigFigs)]
  let out := match q.binLimit with
             | none => webSet out "l" (WebVal.str "")
             | some n => webSet out "l" (WebVal.nat n)
  let out := match q.sampleType with
             | none => out
             | some ty => webSet out "t" (WebVal.str ty)
  let out := if q.dataUpdatesOnly then webSet out "d" (WebVal.str "on") else out
  let out := if q.priorPoint then webSet out "p" (WebVal.str "on") else out
  let out := if q.enumsAsStr then webSet out "s" (WebVal.str "on") else out
  let out := if q.unixTimestampsMs then webSet out "u" (WebVal.str "on") else out
  let out := if q.adjustTimeToServerOffset then webSet out "a" (WebVal.str "on") else out
  let out := if q.integrate then webSet out "i" (WebVal.str "on") else out
  let out := webUpdate out q.extraOpts
  (out, [])

/-- A query carrying one unrecognized extra option, mirroring the
repository's unit test for `to_web_params` with extra kwargs. -/
def sampleExtraQuery : IntervalQueryW :=
  { channel := "channel1", beginStr := "2023-05-09T00:00:00",
    endStr := "2023-05-09T15:59:00", deployment := "ops",
    fracTimeDigits := 0, sigFigs := 6, binLimit := none, sampleType := none,
    dataUpdatesOnly := false, priorPoint := false, enumsAsStr := false,
    unixTimestampsMs := false, adjustTimeToServerOffset := false,
    integrate := false, extraOpts := [("custom_param", WebVal.str "value")] }

/-! ## Basic facts about forward fill and column masking -/

theorem ffillGo_length (a : Option Int) (l : List (Option Int)) :
    (ffillGo a l).length = l.length := by
  induction l generalizing a with
  | nil => rfl
  | cons v rest ih => cases v <;> simp [ffillGo, ih]

theorem ffillCol_length (l : List (Option Int)) : (ffillCol l).length = l.length :=
  ffillGo_length none l

theorem ffillGo_getElem? (l : List (Option Int)) :
    ∀ (a : Option Int) (i : Nat), i < l.length →
      (ffillGo a l)[i]? = some ((l.take (i + 1)).foldl stepFF a) := by
  induction l with
  | nil => intro a i h; simp at h
  | cons v rest ih =>
    intro a i h
    cases i with
    | zero => cases v <;> simp [ffillGo, stepFF]
    | succ i =>
      cases v with
      | some x => simpa [ffillGo, stepFF] using ih (some x) i (by simpa using h)
      | none => simpa [ffillGo, stepFF] using ih a i (by simpa using h)

theorem ffillCol_getElem? (l : List (Option Int)) (i : Nat) (h : i < l.length) :
    (ffillCol l)[i]? = some (lastSome (l.take (i + 1))) :=
  ffillGo_getElem? l none i h

theorem foldl_stepFF_all_none (l : List (Option Int)) :
    ∀ a, (∀ x ∈ l, x = none) → l.foldl stepFF a = a := by
  induction l with
  | nil => intro a _; rfl
  | cons v rest ih =>
    intro a h
    have hv : v = none := h v (by simp)
    subst hv
    simpa [stepFF] using ih a (fun x hx => h x (by simp [hx]))

theorem lastSome_all_none (l : List (Option Int)) (h : ∀ x ∈ l, x = none) :
    lastSome l = none :=
  foldl_stepFF_all_none l none h

theorem lastSome_append_some (A B : List (Option Int)) (v : Int)
    (hB : ∀ x ∈ B, x = none) :
    lastSome (A ++ some v :: B) = some v := by
  unfold lastSome
  rw [List.foldl_append, List.foldl_cons]
  exact foldl_stepFF_all_none B (stepFF (A.foldl stepFF none) (some v)) hB

theorem getElem?_zip_map (f : Nat × Option Int → Option Int) :
    ∀ (xs : List Nat) (col : List (Option Int)) (i : Nat) (t : Nat) (w : Option Int),
      xs[i]? = some t → col[i]? = some w →
      ((xs.zip col).map f)[i]? = some (f (t, w)) := by
  intro xs
  induction xs with
  | nil => intro col i t w h; simp at h
  | cons x xs ih =>
    intro col i t w hx hc
    cases col with
    | nil => simp at hc
    | cons c cs =>
      cases i with
      | zero =>
        simp only [List.getElem?_cons_zero, Option.some.injEq] at hx hc
        subst hx; subst hc; simp
      | succ i =>
        simp only [List.getElem?_cons_succ] at hx hc
        simpa using ih cs i t w hx hc

theorem zip_map_snd (xs : List Nat) :
    ∀ (col : List (Option Int)), col.length = xs.length →
      (xs.zip col).map (fun tc => tc.2) = col := by
  induction xs with
  | nil => intro col h; simp_all [List.length_eq_zero]
  | cons x xs ih =>
    intro col h
    cases col with
    | nil => simp at h
    | cons c cs =>
      simp only [List.zip_cons_cons, List.map_cons]
      simp only [List.length_cons, Nat.succ.injEq] at h
      rw [ih cs h]

theorem mask_mask (p q : Nat → Bool) :
    ∀ (xs : List Nat) (col : List (Option Int)),
      (xs.zip ((xs.zip col).map (fun tc => if q tc.1 then none else tc.2))).map
          (fun tc => if p tc.1 then none else tc.2)
        = (xs.zip col).map (fun tc => if p tc.1 || q tc.1 then none else tc.2) := by
  intro xs
  induction xs with
  | nil => intro col; simp
  | cons x xs ih =>
    intro col
    cases col with
    | nil => simp
    | cons c cs =>
      simp only [List.zip_cons_cons, List.map_cons]
      by_cases hq : q x <;> by_cases hp : p x <;> simp [hq, hp, ih cs]

/-! ## The gap re-application loop as a pointwise mask -/

theorem countNulls_eq_zero_gapPairs {pts : List (Nat × Option Int)}
    (h : countNulls pts = 0) : gapPairs pts = [] := by
  induction pts with
  | nil => rfl
  | cons p rest ih =>
    obtain ⟨t, v⟩ := p
    cases v with
    | none => simp [countNulls, List.filter_cons] at h
    | some x =>
      simp only [countNulls, List.filter_cons, Option.isNone] at h
      exact ih h

theorem maskOnce_length (t0 : Nat) (nxt : Option Nat) (xs : List Nat)
    (col : List (Option Int)) (h : col.length = xs.length) :
    (maskOnce t0 nxt xs col).length = xs.length := by
  simp [maskOnce, h]

theorem applyGaps_maskList (xs : List Nat) :
    ∀ (G : List (Nat × Option Nat)) (col : List (Option Int)), col.length = xs.length →
      G.foldl (fun c p => maskOnce p.1 p.2 xs c) col
        = (xs.zip col).map
            (fun tc => if G.any (fun p => inGapOf p.1 p.2 tc.1) then none else tc.2) := by
  intro G
  induction G with
  | nil =>
    intro col h
    simpa using (zip_map_snd xs col h).symm
  | cons g G ih =>
    intro col h
    rw [List.foldl_cons, ih (maskOnce g.1 g.2 xs col) (maskOnce_length g.1 g.2 xs col h)]
    have h2 := mask_mask (fun t => G.any fun p => inGapOf p.1 p.2 t)
      (fun t => inGapOf g.1 g.2 t) xs col
    refine Eq.trans h2 ?_
    apply List.map_congr_left
    intro tc _
    rw [List.any_cons, Bool.or_comm]

theorem applyGaps_eq_mask (pts : List (Nat × Option Int)) (xs : List Nat)
    (col : List (Option Int)) (h : col.length = xs.length) :
    applyGaps pts xs col
      = (xs.zip col).map (fun tc => if inGap pts tc.1 then none else tc.2) :=
  applyGaps_maskList xs (gapPairs pts) col h

theorem gapStep_eq_map (xs : List Nat) (cols : List (String × List (Option Int)))
    (s : MSeries) : gapStep xs cols s = cols.map (perColStep xs s) := by
  unfold gapStep
  split
  · rfl
  · rename_i h
    have h0 : countNulls s.points = 0 := Nat.eq_zero_of_not_pos h
    have hg : gapPairs s.points = [] := countNulls_eq_zero_gapPairs h0
    have hid : ∀ c ∈ cols, perColStep xs s c = c := by
      intro c _
      unfold perColStep applyGaps
      rw [hg]
      split <;> simp
    rw [List.map_congr_left hid]
    simp

theorem foldl_gapStep (xs : List Nat) :
    ∀ (L : List MSeries) (cols : List (String × List (Option Int))),
      L.foldl (gapStep xs) cols
        = cols.map (fun c => L.foldl (fun c s => perColStep xs s c) c) := by
  intro L
  induction L with
  | nil => intro cols; simp
  | cons s L ih =>
    intro cols
    rw [List.foldl_cons, gapStep_eq_map, ih, List.map_map]
    simp [Function.comp_def]

theorem gapAnyL_cons (s : MSeries) (L : List MSeries) (n : String) (t : Nat) :
    gapAnyL (s :: L) n t
      = ((decide (s.name = n) && inGap s.points t) || gapAnyL L n t) := by
  simp [gapAnyL, List.any_cons]

theorem foldl_perCol (xs : List Nat) :
    ∀ (L : List MSeries) (n : String) (col : List (Option Int)), col.length = xs.length →
      L.foldl (fun c s => perColStep xs s c) (n, col)
        = (n, (xs.zip col).map (fun tc => if gapAnyL L n tc.1 then none else tc.2)) := by
  intro L
  induction L with
  | nil =>
    intro n col h
    rw [List.foldl_nil]
    have : (xs.zip col).map (fun tc => if gapAnyL [] n tc.1 then none else tc.2) = col := by
      have h1 : ∀ tc ∈ xs.zip col,
          (if gapAnyL [] n tc.1 then none else tc.2) = tc.2 := by
        intro tc _; simp [gapAnyL]
      rw [List.map_congr_left h1, zip_map_snd xs col h]
    rw [this]
  | cons s L ih =>
    intro n col h
    rw [List.foldl_cons]
    by_cases hn : n = s.name
    · have hstep : perColStep xs s (n, col) = (n, applyGaps s.points xs col) := by
        simp [perColStep, hn]
      rw [hstep, applyGaps_eq_mask s.points xs col h]
      have hlen : ((xs.zip col).map
          (fun tc => if inGap s.points tc.1 then none else tc.2)).length = xs.length := by
        simp [h]
      rw [ih n _ hlen]
      have h2 := mask_mask (fun t => gapAnyL L n t) (fun t => inGap s.points t) xs col
      refine congrArg (Prod.mk n) ?_
      refine Eq.trans h2 ?_
      apply List.map_congr_left
      intro tc _
      have hd : decide (s.name = n) = true := by simp [hn]
      rw [gapAnyL_cons, hd, Bool.true_and, Bool.or_comm]
    · have hstep : perColStep xs s (n, col) = (n, col) := by
        simp [perColStep, hn]
      rw [hstep, ih n col h]
      have h1 : ∀ tc ∈ xs.zip col,
          (if gapAnyL L n tc.1 then none else tc.2)
            = (if gapAnyL (s :: L) n tc.1 then none else tc.2) := by
        intro tc _
        rw [gapAnyL_cons]
        have : decide (s.name = n) = false := by
          simp only [decide_eq_false_iff_not]
          exact fun hc => hn hc.symm
        simp [this]
      rw [List.map_congr_left h1]

theorem ffill_cells_length (xs : List Nat) (pts : List (Nat × Option Int)) :
    (ffillCol (xs.map (cellAt pts))).length = xs.length := by
  rw [ffillCol_length, List.length_map]

/-- Master column characterization of the merge: the column produced for the
`j`-th input series carries its name, and each cell is the forward-filled
value unless some same-named input series puts the row in a gap, in which
case it is NaN. -/
theorem combine_cols_getElem? (ss : List MSeries) (j : Nat) (s : MSeries)
    (hs : ss[j]? = some s) :
    (combineSeries ss).cols[j]? = some (s.name,
      ((unionIndex ss).zip (ffillCol ((unionIndex ss).map (cellAt s.points)))).map
        (fun tc => if gapAnyL ss s.name tc.1 then none else tc.2)) := by
  unfold combineSeries
  simp only []
  rw [foldl_gapStep, List.getElem?_map]
  unfold filledCols
  rw [List.getElem?_map, hs]
  simp only [Option.map_some']
  rw [foldl_perCol (unionIndex ss) ss s.name _ (ffill_cells_length (unionIndex ss) s.points)]

/-! ## The union row index -/

theorem mem_allTs {ss : List MSeries} {t : Nat} :
    t ∈ allTs ss ↔ ∃ u ∈ ss, t ∈ u.points.map Prod.fst := by
  simp [allTs]

theorem mem_unionIndex {ss : List MSeries} {t : Nat} :
    t ∈ unionIndex ss ↔ t ∈ allTs ss := by
  unfold unionIndex
  rw [(List.perm_insertionSort _ _).mem_iff, List.mem_dedup]

theorem nodup_unionIndex (ss : List MSeries) : (unionIndex ss).Nodup :=
  ((List.perm_insertionSort _ _).nodup_iff).mpr ((allTs ss).nodup_dedup)

theorem sorted_le_unionIndex (ss : List MSeries) :
    (unionIndex ss).Sorted (· ≤ ·) :=
  List.sorted_insertionSort _ _

theorem sorted_lt_unionIndex (ss : List MSeries) :
    (unionIndex ss).Sorted (· < ·) :=
  (sorted_le_unionIndex ss).lt_of_le (nodup_unionIndex ss)

theorem unionIndex_perm {ss ss' : List MSeries} (h : ss.Perm ss') :
    unionIndex ss = unionIndex ss' := by
  refine List.eq_of_perm_of_sorted ?_ (sorted_le_unionIndex ss) (sorted_le_unionIndex ss')
  have h1 : (allTs ss).dedup.Perm (allTs ss').dedup := (h.flatMap_right _).dedup
  exact (List.perm_insertionSort _ _).trans (h1.trans (List.perm_insertionSort _ _).symm)

theorem unionIndex_eq_of_mem_iff {ss ss' : List MSeries}
    (h : ∀ t, t ∈ allTs ss ↔ t ∈ allTs ss') :
    unionIndex ss = unionIndex ss' := by
  refine List.eq_of_perm_of_sorted ?_ (sorted_le_unionIndex ss) (sorted_le_unionIndex ss')
  refine (List.perm_ext_iff_of_nodup (nodup_unionIndex ss) (nodup_unionIndex ss')).mpr ?_
  intro t
  rw [mem_unionIndex, mem_unionIndex]
  exact h t

theorem ts_mem_unionIndex {ss : List MSeries} {u : MSeries} {p : Nat × Option Int}
    (hu : u ∈ ss) (hp : p ∈ u.points) : p.1 ∈ unionIndex ss := by
  rw [mem_unionIndex, mem_allTs]
  exact ⟨u, hu, List.mem_map_of_mem Prod.fst hp⟩

/-! ## Gap membership -/

theorem mem_gapPairs (pts : List (Nat × Option Int)) :
    ∀ (k t0 : Nat), pts[k]? = some (t0, none) →
      (t0, (pts[k + 1]?).map Prod.fst) ∈ gapPairs pts := by
  induction pts with
  | nil => intro k t0 h; simp at h
  | cons p rest ih =>
    intro k t0 h
    cases k with
    | zero =>
      simp only [List.getElem?_cons_zero, Option.some.injEq] at h
      subst h
      cases rest <;> simp [gapPairs]
    | succ k =>
      simp only [List.getElem?_cons_succ] at h
      have hmem := ih k t0 h
      obtain ⟨t, v⟩ := p
      cases v with
      | none => simp [gapPairs, hmem]
      | some x => simpa [gapPairs] using hmem

theorem inGap_of_pair {pts : List (Nat × Option Int)} {t0 : Nat} {nxt : Option Nat}
    {t : Nat} (hmem : (t0, nxt) ∈ gapPairs pts) (hin : inGapOf t0 nxt t = true) :
    inGap pts t = true := by
  unfold inGap
  rw [List.any_eq_true]
  exact ⟨(t0, nxt), hmem, hin⟩

/-! ## Cell-level consequences of the master characterization -/

theorem combine_cell (ss : List MSeries) (j i : Nat) (s : MSeries) (t : Nat)
    (hs : ss[j]? = some s) (hi : (combineSeries ss).idx[i]? = some t) :
    ∃ w, (ffillCol ((unionIndex ss).map (cellAt s.points)))[i]? = some w ∧
      ∃ c, (combineSeries ss).cols[j]? = some c ∧
        c.2[i]? = some (if gapAnyL ss s.name t then none else w) := by
  have hidx : (unionIndex ss)[i]? = some t := hi
  obtain ⟨hlt, -⟩ := List.getElem?_eq_some.mp hidx
  have hltc : i < (ffillCol ((unionIndex ss).map (cellAt s.points))).length := by
    rw [ffill_cells_length]; exact hlt
  refine ⟨(ffillCol ((unionIndex ss).map (cellAt s.points)))[i],
    List.getElem?_eq_getElem hltc, ?_⟩
  refine ⟨_, combine_cols_getElem? ss j s hs, ?_⟩
  exact getElem?_zip_map _ (unionIndex ss) _ i t _ hidx (List.getElem?_eq_getElem hltc)

theorem cell_none_of_inGap (ss : List MSeries) (j i : Nat) (s : MSeries) (t : Nat)
    (hs : ss[j]? = some s) (hi : (combineSeries ss).idx[i]? = some t)
    (hg : inGap s.points t = true) :
    ∃ c, (combineSeries ss).cols[j]? = some c ∧ c.2[i]? = some none := by
  obtain ⟨w, _, c, hc, hcell⟩ := combine_cell ss j i s t hs hi
  have hsmem : s ∈ ss := List.getElem?_mem hs
  have hga : gapAnyL ss s.name t = true := by
    rw [gapAnyL, List.any_eq_true]
    exact ⟨s, hsmem, by simp [hg]⟩
  rw [hga] at hcell
  simp only [if_pos rfl, if_true] at hcell
  exact ⟨c, hc, hcell⟩

/-! ## Sorted-index auxiliary lemmas -/

theorem sortedTs_iff_chain' (l : List Nat) : sortedTs l = true ↔ l.Chain' (· < ·) := by
  induction l with
  | nil => simp [sortedTs]
  | cons a r ih =>
    cases r with
    | nil => simp [sortedTs]
    | cons b r' =>
      rw [List.chain'_cons, ← ih]
      simp [sortedTs]

theorem wf_pairwise {s : MSeries} (h : WfSeries s) :
    s.points.Pairwise (fun a b => a.1 < b.1) :=
  List.pairwise_map.mp
    (List.chain'_iff_pairwise.mp ((sortedTs_iff_chain' _).mp h))

theorem sorted_take_le {xs : List Nat} (hs : xs.Sorted (· < ·)) {i t u : Nat}
    (hi : xs[i]? = some t) (hu : u ∈ xs.take (i + 1)) : u ≤ t := by
  obtain ⟨hilt, hieq⟩ := List.getElem?_eq_some.mp hi
  obtain ⟨k, hk⟩ := List.mem_iff_getElem?.mp hu
  by_cases hki : k < i + 1
  · rw [List.getElem?_take_of_lt hki] at hk
    obtain ⟨hklt, hkeq⟩ := List.getElem?_eq_some.mp hk
    rcases Nat.lt_or_ge k i with hlt | hge
    · have hrel := (List.pairwise_iff_getElem.mp hs) k i hklt hilt hlt
      rw [hkeq, hieq] at hrel
      exact Nat.le_of_lt hrel
    · have hk_eq : k = i := Nat.le_antisymm (Nat.lt_succ_iff.mp hki) hge
      subst hk_eq
      rw [hkeq] at hieq
      exact Nat.le_of_eq hieq
  · rw [List.getElem?_take_eq_none (Nat.le_of_not_lt hki)] at hk
    exact absurd hk (by simp)

theorem mem_take_of_le_sorted {xs : List Nat} (hs : xs.Sorted (· < ·)) {i t u : Nat}
    (hi : xs[i]? = some t) (hu : u ∈ xs) (hle : u ≤ t) : u ∈ xs.take (i + 1) := by
  obtain ⟨hilt, hieq⟩ := List.getElem?_eq_some.mp hi
  obtain ⟨k, hklt, hkeq⟩ := List.getElem_of_mem hu
  by_cases hki : k < i + 1
  · have hk : (xs.take (i + 1))[k]? = some u := by
      rw [List.getElem?_take_of_lt hki, List.getElem?_eq_getElem hklt, hkeq]
    exact List.getElem?_mem hk
  · exfalso
    have hik : i < k := by omega
    have hrel := (List.pairwise_iff_getElem.mp hs) i k hilt hklt hik
    rw [hieq, hkeq] at hrel
    omega

/-! ## Cells of the concat step -/

theorem cellAt_eq_none_of_no_ts {pts : List (Nat × Option Int)} {u : Nat}
    (h : ∀ p ∈ pts, p.1 ≠ u) : cellAt pts u = none := by
  unfold cellAt
  have hnone : pts.find? (fun p => decide (p.1 = u)) = none :=
    List.find?_eq_none.mpr (by intro p hp; simpa using h p hp)
  rw [hnone]

theorem find?_ts_of_mem {pts : List (Nat × Option Int)}
    (hw : pts.Pairwise (fun a b => a.1 < b.1)) {e : Nat × Option Int} (he : e ∈ pts) :
    pts.find? (fun p => decide (p.1 = e.1)) = some e := by
  induction pts with
  | nil => simp at he
  | cons p rest ih =>
    obtain ⟨hhead, htail⟩ := List.pairwise_cons.mp hw
    rcases List.mem_cons.mp he with rfl | hrest
    · rw [List.find?_cons_of_pos _ (by simp)]
    · have hne : p.1 ≠ e.1 := Nat.ne_of_lt (hhead e hrest)
      rw [List.find?_cons_of_neg _ (by simpa using hne)]
      exact ih htail hrest

theorem cellAt_of_mem {pts : List (Nat × Option Int)}
    (hw : pts.Pairwise (fun a b => a.1 < b.1)) {e : Nat × Option Int} (he : e ∈ pts) :
    cellAt pts e.1 = e.2 := by
  unfold cellAt
  rw [find?_ts_of_mem hw he]

/-! ## Forward fill against the latest event -/

theorem ffill_latest (ss : List MSeries) (s : MSeries) (hw : WfSeries s)
    (hmem : s ∈ ss) {i t : Nat} (hi : (unionIndex ss)[i]? = some t)
    {e : Nat × Option Int} {v : Int}
    (he : e ∈ s.points) (hev : e.2 = some v) (het : e.1 ≤ t)
    (hmax : ∀ p ∈ s.points, p.1 ≤ t → p.1 ≤ e.1) :
    (ffillCol ((unionIndex ss).map (cellAt s.points)))[i]? = some (some v) := by
  obtain ⟨hilt, -⟩ := List.getElem?_eq_some.mp hi
  rw [ffillCol_getElem? _ i (by rw [List.length_map]; exact hilt), ← List.map_take]
  refine congrArg some ?_
  have hsort : (unionIndex ss).Sorted (· < ·) := sorted_lt_unionIndex ss
  have hmemx : e.1 ∈ unionIndex ss := ts_mem_unionIndex hmem he
  have hin : e.1 ∈ (unionIndex ss).take (i + 1) := mem_take_of_le_sorted hsort hi hmemx het
  obtain ⟨y1, y2, hys⟩ := List.append_of_mem hin
  rw [hys, List.map_append, List.map_cons]
  have hcell : cellAt s.points e.1 = some v := by
    rw [cellAt_of_mem (wf_pairwise hw) he, hev]
  rw [hcell]
  apply lastSome_append_some
  intro x hx
  obtain ⟨u, hu2, rfl⟩ := List.mem_map.mp hx
  apply cellAt_eq_none_of_no_ts
  intro p hp hpu
  have hu_take : u ∈ (unionIndex ss).take (i + 1) := by
    rw [hys]
    exact List.mem_append.mpr (Or.inr (List.mem_cons_of_mem _ hu2))
  have hut : u ≤ t := sorted_take_le hsort hi hu_take
  have hsort_take : ((unionIndex ss).take (i + 1)).Sorted (· < ·) :=
    hsort.sublist (List.take_sublist _ _)
  rw [hys] at hsort_take
  have hgt : e.1 < u :=
    (List.pairwise_cons.mp (List.pairwise_append.mp hsort_take).2.1).1 u hu2
  have hple := hmax p hp (by rw [hpu]; exact hut)
  omega

theorem ffill_none_before_first (ss : List MSeries) (s : MSeries) (hw : WfSeries s)
    {i t : Nat} (hi : (unionIndex ss)[i]? = some t)
    {p0 : Nat × Option Int} (h0 : s.points.head? = some p0) (ht0 : t < p0.1) :
    (ffillCol ((unionIndex ss).map (cellAt s.points)))[i]? = some none := by
  obtain ⟨hilt, -⟩ := List.getElem?_eq_some.mp hi
  rw [ffillCol_getElem? _ i (by rw [List.length_map]; exact hilt), ← List.map_take]
  refine congrArg some ?_
  have hmin : ∀ p ∈ s.points, p0.1 ≤ p.1 := by
    obtain ⟨rest, hrest⟩ := List.head?_eq_some_iff.mp h0
    intro p hp
    rw [hrest] at hp
    rcases List.mem_cons.mp hp with rfl | hmem
    · exact Nat.le_refl _
    · have hpw := wf_pairwise hw
      rw [hrest] at hpw
      exact Nat.le_of_lt ((List.pairwise_cons.mp hpw).1 p hmem)
  apply lastSome_all_none
  intro x hx
  obtain ⟨u, hu, rfl⟩ := List.mem_map.mp hx
  apply cellAt_eq_none_of_no_ts
  intro p hp hpu
  have hut : u ≤ t := sorted_take_le (sorted_lt_unionIndex ss) hi hu
  have := hmin p hp
  omega

/-! ## The latest event at or before a row -/

theorem latestValue_spec (s : MSeries) (hw : WfSeries s) {t : Nat}
    {p0 : Nat × Option Int} (h0 : s.points.head? = some p0) (h0t : p0.1 ≤ t) :
    ∃ e, e ∈ s.points ∧ e.1 ≤ t ∧ (∀ p ∈ s.points, p.1 ≤ t → p.1 ≤ e.1) ∧
      latestValue s.points t = e.2 := by
  have hp0 : p0 ∈ s.points := List.mem_of_mem_head? (by rw [h0]; simp)
  have hp0f : p0 ∈ s.points.filter (fun p => decide (p.1 ≤ t)) :=
    List.mem_filter.mpr ⟨hp0, by simpa using h0t⟩
  cases hl : (s.points.filter (fun p => decide (p.1 ≤ t))).getLast? with
  | none =>
    rw [List.getLast?_eq_none_iff] at hl
    rw [hl] at hp0f
    simp at hp0f
  | some e =>
    obtain ⟨ys, hys⟩ := List.getLast?_eq_some_iff.mp hl
    have hef : e ∈ s.points.filter (fun p => decide (p.1 ≤ t)) := by
      rw [hys]; simp
    obtain ⟨hemem, het⟩ := List.mem_filter.mp hef
    refine ⟨e, hemem, by simpa using het, ?_, ?_⟩
    · intro p hp hpt
      have hpf : p ∈ s.points.filter (fun p => decide (p.1 ≤ t)) :=
        List.mem_filter.mpr ⟨hp, by simpa using hpt⟩
      rw [hys] at hpf
      rcases List.mem_append.mp hpf with hys1 | hlast
      · have hpwf : (s.points.filter (fun p => decide (p.1 ≤ t))).Pairwise
            (fun a b => a.1 < b.1) := (wf_pairwise hw).sublist (List.filter_sublist _)
        rw [hys] at hpwf
        exact Nat.le_of_lt ((List.pairwise_append.mp hpwf).2.2 p hys1 e (by simp))
      · simp only [List.mem_singleton] at hlast
        rw [hlast]
    · unfold latestValue
      rw [hl]

theorem latest_event_some (s : MSeries) (hw : WfSeries s) {t : Nat}
    {e : Nat × Option Int} (he : e ∈ s.points) (het : e.1 ≤ t)
    (hmax : ∀ p ∈ s.points, p.1 ≤ t → p.1 ≤ e.1)
    (hg : inGap s.points t = false) : ∃ v, e.2 = some v := by
  cases hev : e.2 with
  | some v => exact ⟨v, rfl⟩
  | none =>
    exfalso
    have he' : e = (e.1, none) := by
      obtain ⟨a, b⟩ := e; simp_all
    obtain ⟨k, hk⟩ := List.mem_iff_getElem?.mp he
    rw [he'] at hk
    have hpair := mem_gapPairs s.points k e.1 hk
    cases hnx : s.points[k + 1]? with
    | none =>
      rw [hnx] at hpair
      have : inGap s.points t = true :=
        inGap_of_pair hpair (by simp [inGapOf, het])
      rw [hg] at this
      exact Bool.noConfusion this
    | some q =>
      rw [hnx] at hpair
      have hq_mem : q ∈ s.points := List.getElem?_mem hnx
      have hqt : ¬ q.1 ≤ t := by
        intro hle
        have hq_le := hmax q hq_mem hle
        obtain ⟨hklt, hkeq⟩ := List.getElem?_eq_some.mp hk
        obtain ⟨hk1lt, hk1eq⟩ := List.getElem?_eq_some.mp hnx
        have hrel := (List.pairwise_iff_getElem.mp (wf_pairwise hw)) k (k + 1)
          hklt hk1lt (Nat.lt_succ_self k)
        rw [hkeq, hk1eq] at hrel
        simp only [] at hrel
        omega
      have : inGap s.points t = true :=
        inGap_of_pair hpair (by simp [inGapOf, het]; omega)
      rw [hg] at this
      exact Bool.noConfusion this

/-! ## Column names and gap masks -/

theorem eq_of_name_eq_of_nodup {ss : List MSeries} {j : Nat} {s u : MSeries}
    (hnd : (ss.map MSeries.name).Nodup) (hs : ss[j]? = some s) (hu : u ∈ ss)
    (hname : u.name = s.name) : u = s := by
  obtain ⟨k, hk⟩ := List.mem_iff_getElem?.mp hu
  have hnj : (ss.map MSeries.name)[j]? = some s.name := by
    rw [List.getElem?_map, hs, Option.map_some']
  have hnk : (ss.map MSeries.name)[k]? = some s.name := by
    rw [List.getElem?_map, hk, Option.map_some', hname]
  obtain ⟨hjlt, -⟩ := List.getElem?_eq_some.mp hnj
  have hjk : j = k := List.getElem?_inj hjlt hnd (hnj.trans hnk.symm)
  subst hjk
  rw [hs] at hk
  exact (Option.some.injEq _ _ ▸ hk).symm

theorem gapAnyL_of_nodup {ss : List MSeries} {j : Nat} {s : MSeries}
    (hnd : (ss.map MSeries.name).Nodup) (hs : ss[j]? = some s) (t : Nat) :
    gapAnyL ss s.name t = inGap s.points t := by
  cases hg : inGap s.points t with
  | true =>
    have hsmem : s ∈ ss := List.getElem?_mem hs
    unfold gapAnyL
    rw [List.any_eq_true]
    exact ⟨s, hsmem, by simp [hg]⟩
  | false =>
    unfold gapAnyL
    rw [List.any_eq_false]
    intro u hu
    by_cases hne : u.name = s.name
    · have hus : u = s := eq_of_name_eq_of_nodup hnd hs hu hne
      subst hus
      simp [hg]
    · simp [hne]

theorem gapAnyL_perm {ss ss' : List MSeries} (h : ss.Perm ss') (n : String) (t : Nat) :
    gapAnyL ss n t = gapAnyL ss' n t := by
  unfold gapAnyL
  cases hb : ss'.any (fun u => decide (u.name = n) && inGap u.points t) with
  | true =>
    obtain ⟨u, hu, hp⟩ := List.any_eq_true.mp hb
    exact List.any_eq_true.mpr ⟨u, h.mem_iff.mpr hu, hp⟩
  | false =>
    rw [List.any_eq_false] at hb ⊢
    intro u hu
    exact hb u (h.mem_iff.mp hu)

/-! ## Keyword-argument dictionary lemmas -/

theorem find?_map_update (d : List (String × KwVal)) (k : String) (v : KwVal)
    (hk : k ∈ d.map Prod.fst) :
    (d.map (fun p => if p.1 = k then (p.1, v) else p)).find? (fun p => decide (p.1 = k))
      = some (k, v) := by
  induction d with
  | nil => simp at hk
  | cons p rest ih =>
    by_cases hp : p.1 = k
    · rw [List.map_cons, if_pos hp, List.find?_cons_of_pos _ (by simp [hp]), hp]
    · rw [List.map_cons, if_neg hp, List.find?_cons_of_neg _ (by simp [hp])]
      apply ih
      rw [List.map_cons, List.mem_cons] at hk
      rcases hk with h | h
      · exact absurd h.symm hp
      · exact h

theorem find?_append_absent (d : List (String × KwVal)) (k : String) (v : KwVal)
    (hk : k ∉ d.map Prod.fst) :
    (d ++ [(k, v)]).find? (fun p => decide (p.1 = k)) = some (k, v) := by
  induction d with
  | nil => rw [List.nil_append, List.find?_cons_of_pos _ (by simp)]
  | cons p rest ih =>
    have hp : p.1 ≠ k := by
      intro h
      exact hk (by rw [List.map_cons, List.mem_cons]; exact Or.inl h.symm)
    rw [List.cons_append, List.find?_cons_of_neg _ (by simp [hp])]
    exact ih (fun h => hk (by rw [List.map_cons, List.mem_cons]; exact Or.inr h))

theorem kwSet_lookup (d : List (String × KwVal)) (k : String) (v : KwVal) :
    kwLookup (kwSet d k v) k = some v := by
  unfold kwLookup kwSet
  by_cases hk : k ∈ d.map Prod.fst
  · rw [if_pos hk, find?_map_update d k v hk]
    rfl
  · rw [if_neg hk, find?_append_absent d k v hk]
    rfl

theorem mem_keys_kwSet {d : List (String × KwVal)} {k x : String} {v : KwVal}
    (hx : x ∈ (kwSet d k v).map Prod.fst) : x ∈ d.map Prod.fst ∨ x = k := by
  unfold kwSet at hx
  split at hx
  · left
    have hkeys : (d.map (fun p => if p.1 = k then (p.1, v) else p)).map Prod.fst
        = d.map Prod.fst := by
      rw [List.map_map]
      apply List.map_congr_left
      intro p _
      by_cases h : p.1 = k <;> simp [h]
    rwa [hkeys] at hx
  · rw [List.map_append] at hx
    rcases List.mem_append.mp hx with h | h
    · exact Or.inl h
    · simp only [List.map_cons, List.map_nil, List.mem_singleton] at h
      exact Or.inr h

theorem not_mem_keys_delKey (d : List (String × KwVal)) (k : String) :
    k ∉ (delKey d k).map Prod.fst := by
  intro h
  obtain ⟨p, hp, hpk⟩ := List.mem_map.mp h
  have hmem := List.mem_filter.mp hp
  rw [hpk] at hmem
  simp at hmem

theorem channel_not_in_prep (kwargs : List (String × KwVal)) :
    "channel" ∉ (prepKwargs kwargs).map Prod.fst := by
  unfold prepKwargs
  intro h
  rcases mem_keys_kwSet h with h1 | h2
  · by_cases hc : "channel" ∈ kwargs.map Prod.fst
    · rw [if_pos hc] at h1
      exact not_mem_keys_delKey kwargs "channel" h1
    · rw [if_neg hc] at h1
      exact hc h1
  · exact absurd h2 (by decide)

/-! ## Claim theorems -/

/-- C1: Gap precedence in `Interval._combine_series`.  For well-formed input
sequences and any channel, every union-index row timestamp `r` inside one of
that channel's gap regions — `r ≥ t0` for a null-marker event at `t0`, and
`r < t1` where `t1` is the timestamp of the channel's next event, if any —
has a null cell in that channel's column, even where forward fill from an
earlier non-null event would otherwise supply a value. -/
theorem combine_gap_precedence (ss : List MSeries) (j k i : Nat) (s : MSeries)
    (t0 r : Nat) (hwf : ∀ u ∈ ss, WfSeries u) (hs : ss[j]? = some s)
    (hk : s.points[k]? = some (t0, none)) (h0 : t0 ≤ r)
    (h1 : ∀ q, s.points[k + 1]? = some q → r < q.1)
    (hi : (combineSeries ss).idx[i]? = some r) :
    ∃ c, (combineSeries ss).cols[j]? = some c ∧ c.2[i]? = some none := by
  have hpair := mem_gapPairs s.points k t0 hk
  have hin : inGapOf t0 ((s.points[k + 1]?).map Prod.fst) r = true := by
    cases hnx : s.points[k + 1]? with
    | none => simp [inGapOf, h0]
    | some q =>
      have hq := h1 q hnx
      simp [inGapOf, h0, hq]
  exact cell_none_of_inGap ss j i s r hs hi (inGap_of_pair hpair hin)

/-- C1 witness: channel "A" has a null marker at `t0 = 2` with next event at
`t1 = 5`; union row `r = 2` (row position 2) is nulled in column "A" even
though forward fill from `(0, 5)` would supply `5`. -/
theorem combine_gap_precedence_witness :
    ∃ c, (combineSeries [⟨"A", [(0, some 5), (2, none), (5, some 7)]⟩,
                         ⟨"B", [(1, some 3)]⟩]).cols[0]? = some c ∧
      c.2[2]? = some none := by
  refine combine_gap_precedence
    [⟨"A", [(0, some 5), (2, none), (5, some 7)]⟩, ⟨"B", [(1, some 3)]⟩]
    0 1 2 ⟨"A", [(0, some 5), (2, none), (5, some 7)]⟩ 2 2
    (by decide) rfl rfl (by decide) ?_ rfl
  intro q hq
  have hq' : q = ((5 : Nat), some (7 : Int)) := by
    simpa using hq.symm
  rw [hq']
  decide

/-- C2: Union-index completeness of `Interval._combine_series` — the row
index of the merged table is strictly sorted (hence deduplicated) and
contains exactly the timestamps appearing in some input sequence, so equal
timestamps from different channels collapse into one row. -/
theorem combine_union_index (ss : List MSeries) (hwf : ∀ u ∈ ss, WfSeries u)
    (hne : ss ≠ []) :
    (combineSeries ss).idx.Sorted (· < ·) ∧
      ∀ t, t ∈ (combineSeries ss).idx ↔ ∃ u ∈ ss, t ∈ u.points.map Prod.fst := by
  refine ⟨sorted_lt_unionIndex ss, ?_⟩
  intro t
  rw [show (combineSeries ss).idx = unionIndex ss from rfl, mem_unionIndex, mem_allTs]

/-- C2 witness: for two overlapping channels the merged index is sorted, and
the shared timestamp `4` is present exactly because an input carries it. -/
theorem combine_union_index_witness :
    (combineSeries [⟨"A", [(3, some 1), (5, none)]⟩,
                    ⟨"B", [(4, some 2), (5, some 3)]⟩]).idx.Sorted (· < ·) ∧
      (4 ∈ (combineSeries [⟨"A", [(3, some 1), (5, none)]⟩,
                           ⟨"B", [(4, some 2), (5, some 3)]⟩]).idx ↔
        ∃ u ∈ [(⟨"A", [(3, some 1), (5, none)]⟩ : MSeries),
               ⟨"B", [(4, some 2), (5, some 3)]⟩], 4 ∈ u.points.map Prod.fst) :=
  ⟨(combine_union_index [⟨"A", [(3, some 1), (5, none)]⟩,
      ⟨"B", [(4, some 2), (5, some 3)]⟩] (by decide) (by decide)).1,
   (combine_union_index [⟨"A", [(3, some 1), (5, none)]⟩,
      ⟨"B", [(4, some 2), (5, some 3)]⟩] (by decide) (by decide)).2 4⟩

/-- C5: Pre-first-event nulls — for a well-formed channel sequence, every
union-index row strictly before the channel's first event has a null cell in
that channel's column: values are never back-filled. -/
theorem combine_pre_first_null (ss : List MSeries) (j i : Nat) (s : MSeries)
    (t : Nat) (p0 : Nat × Option Int) (hwf : ∀ u ∈ ss, WfSeries u)
    (hs : ss[j]? = some s) (h0 : s.points.head? = some p0)
    (hi : (combineSeries ss).idx[i]? = some t) (ht : t < p0.1) :
    ∃ c, (combineSeries ss).cols[j]? = some c ∧ c.2[i]? = some none := by
  have hw : WfSeries s := hwf s (List.getElem?_mem hs)
  have hff := ffill_none_before_first ss s hw hi h0 ht
  obtain ⟨w, hw', c, hc, hcell⟩ := combine_cell ss j i s t hs hi
  rw [hff] at hw'
  have hwn : (none : Option Int) = w := Option.some.injEq _ _ ▸ hw'
  rw [← hwn, ite_self] at hcell
  exact ⟨c, hc, hcell⟩

/-- C5 witness: channel "B" first appears at `t = 1`; the union row `t = 0`
(row position 0), contributed by channel "A", is null in column "B". -/
theorem combine_pre_first_null_witness :
    ∃ c, (combineSeries [⟨"A", [(0, some 9)]⟩,
                         ⟨"B", [(1, some 3), (6, some 4)]⟩]).cols[1]? = some c ∧
      c.2[0]? = some none :=
  combine_pre_first_null [⟨"A", [(0, some 9)]⟩, ⟨"B", [(1, some 3), (6, some 4)]⟩]
    1 0 ⟨"B", [(1, some 3), (6, some 4)]⟩ 0 (1, some 3)
    (by decide) rfl rfl rfl (by decide)

/-- C6: A trailing null marker opens an unbounded gap — when a channel's
last event is a null marker at `t0`, every union-index row at or after `t0`
has a null cell in that channel's column, to the end of the table. -/
theorem combine_trailing_null (ss : List MSeries) (j i : Nat) (s : MSeries)
    (t0 r : Nat) (hwf : ∀ u ∈ ss, WfSeries u) (hs : ss[j]? = some s)
    (hlast : s.points.getLast? = some (t0, none)) (h0 : t0 ≤ r)
    (hi : (combineSeries ss).idx[i]? = some r) :
    ∃ c, (combineSeries ss).cols[j]? = some c ∧ c.2[i]? = some none := by
  obtain ⟨ys, hys⟩ := List.getLast?_eq_some_iff.mp hlast
  have hk : s.points[ys.length]? = some (t0, none) := by
    rw [hys, List.getElem?_append_right (Nat.le_refl _)]
    simp
  have hk1 : s.points[ys.length + 1]? = none := by
    rw [hys]
    apply List.getElem?_eq_none
    simp
  have hpair := mem_gapPairs s.points ys.length t0 hk
  rw [hk1] at hpair
  simp only [Option.map_none'] at hpair
  exact cell_none_of_inGap ss j i s r hs hi
    (inGap_of_pair hpair (by simp [inGapOf, h0]))

/-- C6 witness: channel "C" ends with a null marker at `t0 = 3`; the later
union row `r = 7` (row position 2), contributed only by channel "D", is null
in column "C". -/
theorem combine_trailing_null_witness :
    ∃ c, (combineSeries [⟨"C", [(0, some 1), (3, none)]⟩,
                         ⟨"D", [(7, some 2)]⟩]).cols[0]? = some c ∧
      c.2[2]? = some none :=
  combine_trailing_null [⟨"C", [(0, some 1), (3, none)]⟩, ⟨"D", [(7, some 2)]⟩]
    0 2 ⟨"C", [(0, some 1), (3, none)]⟩ 3 7
    (by decide) rfl rfl (by decide) rfl

/-- C3: Forward-fill correctness — for well-formed, distinctly named input
sequences and any channel, a union-index row at or after the channel's first
event and not inside any of its gap regions carries the value of the
channel's latest event at or before that row's timestamp. -/
theorem combine_forward_fill (ss : List MSeries) (j i : Nat) (s : MSeries) (t : Nat)
    (p0 : Nat × Option Int)
    (hwf : ∀ u ∈ ss, WfSeries u) (hnd : (ss.map MSeries.name).Nodup)
    (hs : ss[j]? = some s) (hi : (combineSeries ss).idx[i]? = some t)
    (h0 : s.points.head? = some p0) (h0t : p0.1 ≤ t)
    (hg : inGap s.points t = false) :
    ∃ c, (combineSeries ss).cols[j]? = some c ∧
      c.2[i]? = some (latestValue s.points t) := by
  have hw : WfSeries s := hwf s (List.getElem?_mem hs)
  obtain ⟨e, hemem, het, hmax, hlv⟩ := latestValue_spec s hw h0 h0t
  obtain ⟨v, hev⟩ := latest_event_some s hw hemem het hmax hg
  have hff := ffill_latest ss s hw (List.getElem?_mem hs) hi hemem hev het hmax
  obtain ⟨w, hwcell, c, hc, hcell⟩ := combine_cell ss j i s t hs hi
  rw [hff] at hwcell
  have hwv : (some v : Option Int) = w := Option.some.injEq _ _ ▸ hwcell
  have hga : gapAnyL ss s.name t = false := by
    rw [gapAnyL_of_nodup hnd hs]
    exact hg
  rw [hga] at hcell
  simp only [Bool.false_eq_true, if_false] at hcell
  refine ⟨c, hc, ?_⟩
  rw [hcell, ← hwv, hlv, hev]

/-- C3 witness: in column "E", union row `t = 2` (row position 1, contributed
by channel "F") is forward-filled with the value of "E"'s latest event at or
before `t = 2`, i.e. the event `(1, 4)`. -/
theorem combine_forward_fill_witness :
    ∃ c, (combineSeries [⟨"E", [(1, some 4), (3, some 6)]⟩,
                         ⟨"F", [(2, some 8)]⟩]).cols[0]? = some c ∧
      c.2[1]? = some (latestValue [(1, some 4), (3, some 6)] 2) :=
  combine_forward_fill [⟨"E", [(1, some 4), (3, some 6)]⟩, ⟨"F", [(2, some 8)]⟩]
    0 1 ⟨"E", [(1, some 4), (3, some 6)]⟩ 2 (1, some 4)
    (by decide) (by decide) rfl rfl rfl (by decide) rfl

/-- C7: Order invariance — merging a permutation of the same sequences
yields the same row index and, position for position, identical columns:
merging `[S1, S2]` and `[S2, S1]` gives tables identical except for column
order. -/
theorem combine_order_invariance (ss ss' : List MSeries) (j j' : Nat) (s : MSeries)
    (hwf : ∀ u ∈ ss, WfSeries u) (hperm : ss.Perm ss')
    (hs : ss[j]? = some s) (hs' : ss'[j']? = some s) :
    (combineSeries ss).idx = (combineSeries ss').idx ∧
      (combineSeries ss).cols[j]? = (combineSeries ss').cols[j']? := by
  have hidx : unionIndex ss = unionIndex ss' := unionIndex_perm hperm
  refine ⟨hidx, ?_⟩
  rw [combine_cols_getElem? ss j s hs, combine_cols_getElem? ss' j' s hs', hidx]
  refine congrArg (fun l => some (s.name, l)) ?_
  apply List.map_congr_left
  intro tc _
  rw [gapAnyL_perm hperm s.name tc.1]

/-- C7 witness: `[G, H]` and `[H, G]` merge to the same index, and column
"G" (position 0 in the first table, position 1 in the second) is
identical. -/
theorem combine_order_invariance_witness :
    (combineSeries [⟨"G", [(0, some 1), (4, none)]⟩, ⟨"H", [(2, some 2)]⟩]).idx
      = (combineSeries [⟨"H", [(2, some 2)]⟩, ⟨"G", [(0, some 1), (4, none)]⟩]).idx ∧
    (combineSeries [⟨"G", [(0, some 1), (4, none)]⟩, ⟨"H", [(2, some 2)]⟩]).cols[0]?
      = (combineSeries [⟨"H", [(2, some 2)]⟩,
                        ⟨"G", [(0, some 1), (4, none)]⟩]).cols[1]? :=
  combine_order_invariance
    [⟨"G", [(0, some 1), (4, none)]⟩, ⟨"H", [(2, some 2)]⟩]
    [⟨"H", [(2, some 2)]⟩, ⟨"G", [(0, some 1), (4, none)]⟩]
    0 1 ⟨"G", [(0, some 1), (4, none)]⟩
    (by decide) (by decide) rfl rfl

/-- C9: Per-channel noninterference — for two well-formed, distinctly named
input lists containing the same sequence for channel `s` and covering the
same overall set of timestamps (in particular, when the other sequences
agree pairwise on their timestamp multisets while their values differ),
the merge produces identical column entries for `s` in both runs. -/
theorem combine_noninterference (ss ss' : List MSeries) (j j' : Nat) (s : MSeries)
    (hwf : ∀ u ∈ ss, WfSeries u) (hwf' : ∀ u ∈ ss', WfSeries u)
    (hnd : (ss.map MSeries.name).Nodup) (hnd' : (ss'.map MSeries.name).Nodup)
    (hs : ss[j]? = some s) (hs' : ss'[j']? = some s)
    (hts : ∀ t, t ∈ allTs ss ↔ t ∈ allTs ss') :
    (combineSeries ss).cols[j]? = (combineSeries ss').cols[j']? := by
  have hidx : unionIndex ss = unionIndex ss' := unionIndex_eq_of_mem_iff hts
  rw [combine_cols_getElem? ss j s hs, combine_cols_getElem? ss' j' s hs', hidx]
  refine congrArg (fun l => some (s.name, l)) ?_
  apply List.map_congr_left
  intro tc _
  rw [gapAnyL_of_nodup hnd hs, gapAnyL_of_nodup hnd' hs']

/-- C9 witness: channel "K" gets the same column whether the other channel
"L" reports values `(1, 5), (2, 6)` or a disconnect pattern `(1, NaN),
(2, 9)` — same timestamps, different values — and regardless of position. -/
theorem combine_noninterference_witness :
    (combineSeries [⟨"K", [(0, some 1)]⟩, ⟨"L", [(1, some 5), (2, some 6)]⟩]).cols[0]?
      = (combineSeries [⟨"L", [(1, none), (2, some 9)]⟩,
                        ⟨"K", [(0, some 1)]⟩]).cols[1]? :=
  combine_noninterference
    [⟨"K", [(0, some 1)]⟩, ⟨"L", [(1, some 5), (2, some 6)]⟩]
    [⟨"L", [(1, none), (2, some 9)]⟩, ⟨"K", [(0, some 1)]⟩]
    0 1 ⟨"K", [(0, some 1)]⟩
    (by decide) (by decide) (by decide) (by decide) rfl rfl
    (by
      intro t
      show t ∈ [0, 1, 2] ↔ t ∈ [1, 2, 0]
      simp only [List.mem_cons, List.not_mem_nil, or_false]
      tauto)

/-- C4 (amended): when any per-channel `run` fails (its `data` left `None`),
`run_parallel` still fails overall — the merge step raises a `TypeError` on
the `None` entry — and no partial merged table is returned; but the failure
does not identify the failing channel(s), and the
`MyqueryException("Some PV queries did not complete.")` path is unreachable
because `wait(..., ALL_COMPLETED)` counts a raised query as done. -/
theorem runParallel_fails_without_channel_report
    (outcomes : List (String × Option MSeries)) (c : String) (k : Nat)
    (hk : outcomes[k]? = some (c, none)) :
    runParallelMerge outcomes
      = Except.error (PyError.typeError "cannot concatenate object of type NoneType") := by
  have hnot : ¬ ((outcomes.map (fun c => c.2)).all Option.isSome = true) := by
    rw [List.all_eq_true]
    intro hall
    have hmem : (c, (none : Option MSeries)) ∈ outcomes := List.getElem?_mem hk
    have hnone : (none : Option MSeries) ∈ outcomes.map (fun c => c.2) :=
      List.mem_map.mpr ⟨(c, none), hmem, rfl⟩
    exact absurd (hall _ hnone) (by simp)
  unfold runParallelMerge notDoneChannels concatOrRaise
  rw [if_neg (by decide), if_neg hnot]

/-- C4 witness: one failed channel makes the whole call raise the concat
`TypeError`; no table is produced. -/
theorem runParallel_fails_without_channel_report_witness :
    runParallelMerge [("chanX", none)]
      = Except.error (PyError.typeError "cannot concatenate object of type NoneType") :=
  runParallel_fails_without_channel_report [("chanX", none)] "chanX" 0 rfl

/-- C4 counterexample: two runs in which different channels fail produce the
identical error value, so the failure cannot be reporting which channel(s)
did not complete; and the error raised is the merge-step `TypeError`, not a
channel-aware `MyqueryException`. -/
theorem runParallel_error_not_channel_specific :
    runParallelMerge [("chanA", none), ("chanB", some ⟨"chanB", [(0, some 1)]⟩)]
      = runParallelMerge [("chanB", none), ("chanA", some ⟨"chanA", [(0, some 1)]⟩)] ∧
    runParallelMerge [("chanA", none), ("chanB", some ⟨"chanB", [(0, some 1)]⟩)]
      = Except.error (PyError.typeError "cannot concatenate object of type NoneType") :=
  ⟨rfl, rfl⟩

/-- C8 (code evaluation): `to_web_params` never emits a warning — for every
query the emitted warning list is empty — even though a non-empty extra-opts
bag is forwarded verbatim, as the evaluation at `sampleExtraQuery` (whose
bag is non-empty) shows.  The repository's own unit tests expect
`IntervalQuery.to_web_params` to warn here. -/
theorem toWebParams_forwards_but_never_warns :
    (∀ q : IntervalQueryW, (toWebParams q).2 = []) ∧
    sampleExtraQuery.extraOpts ≠ [] ∧
    webLookup (toWebParams sampleExtraQuery).1 "custom_param"
      = some (WebVal.str "value") :=
  ⟨fun _ => rfl, by decide, by decide⟩

/-- C10: `run_parallel` deletes any caller-supplied `channel` keyword
argument and overwrites `prior_point` with `True`, so every constructed
query binds its channel from `pvlist` alone (no duplicate-keyword
`TypeError`) and requests the prior point. -/
theorem runParallel_query_construction (kwargs : List (String × KwVal))
    (pvlist : List String) (j : Nat) (pv : String) (hj : pvlist[j]? = some pv) :
    "channel" ∉ (prepKwargs kwargs).map Prod.fst ∧
      (buildQueries pvlist kwargs)[j]? = some (Except.ok (pv, true)) := by
  refine ⟨channel_not_in_prep kwargs, ?_⟩
  unfold buildQueries
  rw [List.getElem?_map, hj, Option.map_some']
  have hpp : kwLookup (prepKwargs kwargs) "prior_point" = some (KwVal.b true) :=
    kwSet_lookup _ "prior_point" (KwVal.b true)
  unfold mkIntervalQuery
  rw [if_neg (channel_not_in_prep kwargs), hpp]

/-- C10 witness: with a malicious `channel` keyword and `prior_point :=
False` supplied by the caller, the second query is still built for "PV2"
with `prior_point = True`, and no `channel` key survives. -/
theorem runParallel_query_construction_witness :
    "channel" ∉ (prepKwargs [("channel", KwVal.s "EVIL"),
                             ("prior_point", KwVal.b false)]).map Prod.fst ∧
      (buildQueries ["PV1", "PV2"]
        [("channel", KwVal.s "EVIL"), ("prior_point", KwVal.b false)])[1]?
        = some (Except.ok ("PV2", true)) :=
  runParallel_query_construction
    [("channel", KwVal.s "EVIL"), ("prior_point", KwVal.b false)]
    ["PV1", "PV2"] 1 "PV2" rfl

end JlabArchiver
